import Mathlib

/-!
Verification of the write-broadcast and live-query core of the corrosion
agent (crates/corro-agent/src/api/http.rs).

Definitions mirror the Rust source:
* `ChunkedChanges` and its `Iterator::next` implementation (the change chunker);
* `make_broadcastable_changes` (the serialized writer with post-commit
  broadcast), modelled over an explicit `AgentState` in place of the SQLite
  database, the in-memory bookie and the broadcast channel;
* `api_v1_transactions` (the transactional execute endpoint), with the SQL
  engine abstracted as an oracle function;
* the snapshot task spawned by `watch_by_id`, modelled as the trace of
  row-results it emits.

Machine integers (`i64`, `usize`) are modelled as `Int` / `Nat`; the values
involved (sequence numbers, versions) stay far from overflow in the source's
own tests, and the source performs no wrapping arithmetic on them.
-/

namespace Corrosion

/-- A change record as read from the crsql `changes` view:
`(table, pk, cid, val, col_version, db_version, seq, site_id)`.
A locally produced row carries `site_id = none` in storage. -/
structure Change where
  table : String
  pk : String
  cid : String
  val : String
  col_version : Int
  db_version : Int
  seq : Int
  site_id : Option Int
deriving DecidableEq, Repr

/-- Errors from the storage layer (rusqlite); opaque payload. -/
abbrev SqlError := String

instance {ε α : Type} [DecidableEq ε] [DecidableEq α] : DecidableEq (Except ε α)
  | Except.error e, Except.error f =>
    if h : e = f then Decidable.isTrue (by rw [h])
    else Decidable.isFalse (fun hc => h (by cases hc; rfl))
  | Except.error _, Except.ok _ => Decidable.isFalse (fun hc => by cases hc)
  | Except.ok _, Except.error _ => Decidable.isFalse (fun hc => by cases hc)
  | Except.ok a, Except.ok b =>
    if h : a = b then Decidable.isTrue (by rw [h])
    else Decidable.isFalse (fun hc => h (by cases hc; rfl))

/-- One yielded item of the chunker: `(Vec<Change>, RangeInclusive<i64>)`. -/
structure Frame where
  changes : List Change
  seqs_start : Int
  seqs_end : Int
deriving DecidableEq, Repr

/-- The `ChunkedChanges<I>` struct.  The fallible row iterator `I` is a list
of `Except SqlError Change` consumed from the front. -/
structure ChunkedChanges where
  iter : List (Except SqlError Change)
  changes : List Change
  last_pushed_seq : Int
  last_start_seq : Int
  last_seq : Int
  chunk_size : Nat
  done : Bool
deriving DecidableEq, Repr

/-- `ChunkedChanges::new`. -/
def ChunkedChanges.new (iter : List (Except SqlError Change)) (start_seq last_seq : Int)
    (chunk_size : Nat) : ChunkedChanges :=
  { iter := iter
    changes := []
    last_pushed_seq := 0
    last_start_seq := start_seq
    last_seq := last_seq
    chunk_size := chunk_size
    done := false }

/-- The `loop` inside `ChunkedChanges::next`, consuming the iterator until a
frame is produced.  The first argument is the remaining iterator (always the
`iter` field of the second argument). -/
def ChunkedChanges.nextLoop :
    List (Except SqlError Change) → ChunkedChanges →
      Option (Except SqlError Frame) × ChunkedChanges
  | [], s =>
    -- iterator returned None: mark done, break, return buffered changes
    let s1 : ChunkedChanges := { s with iter := [], done := true }
    (some (Except.ok ⟨s1.changes, s1.last_start_seq, s1.last_seq⟩), s1)
  | Except.error e :: rest, s =>
    -- Some(Err(e)) => return Some(Err(e)); `done` is NOT set
    (some (Except.error e), { s with iter := rest })
  | Except.ok c :: rest, s =>
    let s1 : ChunkedChanges :=
      { s with iter := rest, last_pushed_seq := c.seq, changes := s.changes ++ [c] }
    if c.seq = s1.last_seq then
      -- this was the last seq! break early
      let s2 : ChunkedChanges := { s1 with done := true }
      (some (Except.ok ⟨s2.changes, s2.last_start_seq, s2.last_seq⟩), s2)
    else if s1.chunk_size ≤ s1.changes.length then
      -- chunking it up
      (some (Except.ok ⟨s1.changes, s1.last_start_seq, c.seq⟩),
        { s1 with changes := [], last_start_seq := c.seq + 1 })
    else
      ChunkedChanges.nextLoop rest s1

/-- `<ChunkedChanges as Iterator>::next`, returning the yielded item together
with the successor state. -/
def ChunkedChanges.next (s : ChunkedChanges) :
    Option (Except SqlError Frame) × ChunkedChanges :=
  if s.done then (none, s) else ChunkedChanges.nextLoop s.iter s

/-- Drive the chunker: repeatedly call `next`, collecting yielded items, until
`next` returns `none` or the fuel runs out.  Fuel `iter.length + 2` always
suffices to reach termination. -/
def ChunkedChanges.run : Nat → ChunkedChanges → List (Except SqlError Frame)
  | 0, _ => []
  | fuel + 1, s =>
    match s.next with
    | (none, _) => []
    | (some r, s1) => r :: ChunkedChanges.run fuel s1

/-! ### Proof infrastructure for the chunker

`specGo` is a functional restatement of one full run of the chunker over an
error-free iterator; `run_eq_specGo` proves the state machine refines it.
`isPartitionOf a b rs` decides that `rs` is a contiguous ascending partition
of the closed interval `[a, b]` into nonempty closed intervals. -/

/-- Functional description of a complete chunker run over error-free input:
`rem` is the remaining input, `buf` the buffered changes, `a` the start of the
range the next frame will cover. -/
def specGo (last : Int) (n : Nat) : List Change → List Change → Int → List Frame
  | [], buf, a => [⟨buf, a, last⟩]
  | c :: rest, buf, a =>
    if c.seq = last then [⟨buf ++ [c], a, last⟩]
    else if n ≤ (buf ++ [c]).length then
      ⟨buf ++ [c], a, c.seq⟩ :: specGo last n rest [] (c.seq + 1)
    else
      specGo last n rest (buf ++ [c]) a

/-- `isPartitionOf a b rs` holds when `rs = [(s1,e1),...,(sk,ek)]` is nonempty,
`s1 = a`, `ek = b`, each `si ≤ ei`, and each `s(i+1) = ei + 1`. -/
def isPartitionOf (a b : Int) : List (Int × Int) → Bool
  | [] => false
  | [(s, e)] => s == a && e == b && decide (a ≤ b)
  | (s, e) :: p :: l => s == a && decide (s ≤ e) && isPartitionOf (e + 1) b (p :: l)

/-- The chunker state with an error-free remaining iterator, empty or partial
buffer; the canonical shape every state takes during an error-free run. -/
def mkChunkState (last : Int) (n : Nat) (rem buf : List Change) (a lp : Int) :
    ChunkedChanges :=
  { iter := rem.map Except.ok
    changes := buf
    last_pushed_seq := lp
    last_start_seq := a
    last_seq := last
    chunk_size := n
    done := false }

theorem new_eq_mkChunkState (rem : List Change) (a last : Int) (n : Nat) :
    ChunkedChanges.new (rem.map Except.ok) a last n = mkChunkState last n rem [] a 0 := rfl

theorem specGo_ne_nil (last : Int) (n : Nat) (rem : List Change) :
    ∀ (buf : List Change) (a : Int), specGo last n rem buf a ≠ [] := by
  induction rem with
  | nil => intro buf a; simp [specGo]
  | cons c rest ih =>
    intro buf a
    by_cases hc : c.seq = last
    · simp [specGo, hc]
    · by_cases hn : n ≤ buf.length + 1
      · simp [specGo, hc, hn]
      · simpa [specGo, hc, hn] using ih (buf ++ [c]) a

/-- One call of the chunker loop over error-free input yields exactly the head
frame of `specGo`, and either terminates (`done`) with `specGo` a singleton,
or continues from the successor state `specGo` recurses on. -/
theorem nextLoop_ok (last : Int) (n : Nat) (rem : List Change) :
    ∀ (buf : List Change) (a lp : Int),
      (∃ f s', specGo last n rem buf a = [f] ∧
        ChunkedChanges.nextLoop (rem.map Except.ok) (mkChunkState last n rem buf a lp)
          = (some (Except.ok f), s') ∧ s'.done = true)
      ∨ (∃ f rest q lp2, specGo last n rem buf a = f :: specGo last n rest [] q ∧
          ChunkedChanges.nextLoop (rem.map Except.ok) (mkChunkState last n rem buf a lp)
            = (some (Except.ok f), mkChunkState last n rest [] q lp2) ∧
          rest.length < rem.length) := by
  induction rem with
  | nil =>
    intro buf a lp
    refine Or.inl ⟨⟨buf, a, last⟩,
      { iter := [], changes := buf, last_pushed_seq := lp, last_start_seq := a,
        last_seq := last, chunk_size := n, done := true },
      by simp [specGo], ?_, rfl⟩
    simp [ChunkedChanges.nextLoop, mkChunkState]
  | cons c rest ih =>
    intro buf a lp
    by_cases hc : c.seq = last
    · refine Or.inl ⟨⟨buf ++ [c], a, last⟩,
        { iter := rest.map Except.ok, changes := buf ++ [c], last_pushed_seq := c.seq,
          last_start_seq := a, last_seq := last, chunk_size := n, done := true },
        by simp [specGo, hc], ?_, rfl⟩
      simp [ChunkedChanges.nextLoop, mkChunkState, hc]
    · by_cases hn : n ≤ buf.length + 1
      · refine Or.inr ⟨⟨buf ++ [c], a, c.seq⟩, rest, c.seq + 1, c.seq,
          by simp [specGo, hc, hn], ?_, by simp⟩
        simp [ChunkedChanges.nextLoop, mkChunkState, hc, hn]
      · have hstep :
            ChunkedChanges.nextLoop ((c :: rest).map Except.ok) (mkChunkState last n (c :: rest) buf a lp)
              = ChunkedChanges.nextLoop (rest.map Except.ok) (mkChunkState last n rest (buf ++ [c]) a c.seq) := by
          simp [ChunkedChanges.nextLoop, mkChunkState, hc, hn]
        have hsg : specGo last n (c :: rest) buf a = specGo last n rest (buf ++ [c]) a := by
          simp [specGo, hc, hn]
        rcases ih (buf ++ [c]) a c.seq with ⟨f, s', h1, h2, h3⟩ | ⟨f, rest2, q, lp2, h1, h2, h3⟩
        · exact Or.inl ⟨f, s', by rw [hsg, h1], by rw [hstep, h2], h3⟩
        · exact Or.inr ⟨f, rest2, q, lp2, by rw [hsg, h1], by rw [hstep, h2], by simpa using Nat.lt_succ_of_lt h3⟩

/-- A complete chunker run over error-free input computes `specGo`. -/
theorem run_eq_specGo (last : Int) (n : Nat) :
    ∀ (fuel : Nat) (rem buf : List Change) (a lp : Int),
      rem.length + 2 ≤ fuel →
      ChunkedChanges.run fuel (mkChunkState last n rem buf a lp)
        = (specGo last n rem buf a).map Except.ok := by
  intro fuel
  induction fuel using Nat.strong_induction_on with
  | _ fuel ih =>
    intro rem buf a lp hfuel
    obtain ⟨f2, rfl⟩ : ∃ f2, fuel = f2 + 1 := ⟨fuel - 1, by omega⟩
    have hdone : (mkChunkState last n rem buf a lp).done = false := rfl
    have hnext : (mkChunkState last n rem buf a lp).next
        = ChunkedChanges.nextLoop (rem.map Except.ok) (mkChunkState last n rem buf a lp) := by
      simp [ChunkedChanges.next, mkChunkState]
    rcases nextLoop_ok last n rem buf a lp with ⟨f, s', h1, h2, h3⟩ | ⟨f, rest, q, lp2, h1, h2, h3⟩
    · have hs : (mkChunkState last n rem buf a lp).next = (some (Except.ok f), s') := by
        rw [hnext, h2]
      obtain ⟨f3, rfl⟩ : ∃ f3, f2 = f3 + 1 := ⟨f2 - 1, by omega⟩
      have hstop : s'.next = (none, s') := by simp [ChunkedChanges.next, h3]
      simp [ChunkedChanges.run, hs, hstop, h1]
    · have hs : (mkChunkState last n rem buf a lp).next
          = (some (Except.ok f), mkChunkState last n rest [] q lp2) := by
        rw [hnext, h2]
      have htail := ih f2 (by omega) rest [] q lp2 (by omega)
      simp [ChunkedChanges.run, hs, htail, h1]

theorem isPartitionOf_cons₂ (a b s e : Int) (p : Int × Int) (l : List (Int × Int)) :
    isPartitionOf a b ((s, e) :: p :: l)
      = (s == a && decide (s ≤ e) && isPartitionOf (e + 1) b (p :: l)) := rfl

/-- The frames of an error-free run concatenate, in order, back to exactly the
buffered prefix followed by the remaining input records. -/
theorem specGo_join (last : Int) (n : Nat) (rem : List Change) :
    ∀ (buf : List Change) (a : Int),
      (∀ c ∈ rem, c.seq ≤ last) →
      rem.Pairwise (fun x y => x.seq < y.seq) →
      ((specGo last n rem buf a).map Frame.changes).flatten = buf ++ rem := by
  induction rem with
  | nil => intro buf a _ _; simp [specGo]
  | cons c rest ih =>
    intro buf a hin hasc
    rw [List.pairwise_cons] at hasc
    by_cases hc : c.seq = last
    · have hrest : rest = [] := by
        cases rest with
        | nil => rfl
        | cons y t =>
          have h1 : c.seq < y.seq := hasc.1 y (by simp)
          have h2 : y.seq ≤ last := hin y (by simp)
          omega
      simp [specGo, hc, hrest]
    · by_cases hn : n ≤ buf.length + 1
      · have := ih [] (c.seq + 1) (fun x hx => hin x (by simp [hx])) hasc.2
        simp [specGo, hc, hn, this]
      · have := ih (buf ++ [c]) a (fun x hx => hin x (by simp [hx])) hasc.2
        simp [specGo, hc, hn, this]

/-- The ranges of an error-free run form a contiguous ascending partition of
`[a, last]`. -/
theorem specGo_partition (last : Int) (n : Nat) (rem : List Change) :
    ∀ (buf : List Change) (a : Int),
      a ≤ last →
      (∀ c ∈ rem, a ≤ c.seq ∧ c.seq ≤ last) →
      rem.Pairwise (fun x y => x.seq < y.seq) →
      isPartitionOf a last
        ((specGo last n rem buf a).map (fun f => (f.seqs_start, f.seqs_end))) = true := by
  induction rem with
  | nil => intro buf a ha _ _; simp [specGo, isPartitionOf, ha]
  | cons c rest ih =>
    intro buf a ha hin hasc
    rw [List.pairwise_cons] at hasc
    by_cases hc : c.seq = last
    · simp [specGo, hc, isPartitionOf, ha]
    · have hc1 : a ≤ c.seq := (hin c (by simp)).1
      have hc2 : c.seq ≤ last := (hin c (by simp)).2
      by_cases hn : n ≤ buf.length + 1
      · have hin2 : ∀ x ∈ rest, c.seq + 1 ≤ x.seq ∧ x.seq ≤ last := by
          intro x hx
          exact ⟨by have := hasc.1 x hx; omega, (hin x (by simp [hx])).2⟩
        have htail := ih [] (c.seq + 1) (by omega) hin2 hasc.2
        obtain ⟨p, l, hpl⟩ :
            ∃ p l, specGo last n rest [] (c.seq + 1) = p :: l := by
          cases hsub : specGo last n rest [] (c.seq + 1) with
          | nil => exact absurd hsub (specGo_ne_nil last n rest [] (c.seq + 1))
          | cons p l => exact ⟨p, l, rfl⟩
        rw [hpl] at htail
        have hgoal : specGo last n (c :: rest) buf a
            = ⟨buf ++ [c], a, c.seq⟩ :: (p :: l) := by
          simp [specGo, hc, hn, hpl]
        rw [hgoal]
        simp only [List.map_cons]
        rw [isPartitionOf_cons₂]
        simp only [List.map_cons] at htail
        simp [htail, hc1]
      · have hin2 : ∀ x ∈ rest, a ≤ x.seq ∧ x.seq ≤ last := fun x hx => hin x (by simp [hx])
        have := ih (buf ++ [c]) a ha hin2 hasc.2
        simp [specGo, hc, hn, this]

/-- C1 helper: the run of a freshly constructed chunker over error-free input. -/
theorem run_new_eq_specGo (changes : List Change) (start_seq last_seq : Int) (n fuel : Nat)
    (hfuel : changes.length + 2 ≤ fuel) :
    ChunkedChanges.run fuel (ChunkedChanges.new (changes.map Except.ok) start_seq last_seq n)
      = (specGo last_seq n changes [] start_seq).map Except.ok := by
  rw [new_eq_mkChunkState]
  exact run_eq_specGo last_seq n fuel changes [] start_seq 0 hfuel

/-! ### Chunker claims -/

/-- C1: For every ChunkedChanges built over a finite ascending-by-seq iterator
of Ok change records with seqs contained in `[start_seq, last_seq]` (with
`start_seq ≤ last_seq`), the concatenation of the yielded frames, in order,
equals the input records, and the yielded inclusive ranges form a contiguous
ascending partition of `[start_seq, last_seq]` (in particular at least one
frame is yielded and the terminal range ends at `last_seq`). -/
theorem chunker_frames_partition (changes : List Change) (start_seq last_seq : Int)
    (n fuel : Nat)
    (hasc : changes.Pairwise (fun x y => x.seq < y.seq))
    (hin : ∀ c ∈ changes, start_seq ≤ c.seq ∧ c.seq ≤ last_seq)
    (hsl : start_seq ≤ last_seq)
    (hfuel : changes.length + 2 ≤ fuel) :
    ∃ frames : List Frame,
      ChunkedChanges.run fuel
          (ChunkedChanges.new (changes.map Except.ok) start_seq last_seq n)
        = frames.map Except.ok ∧
      (frames.map Frame.changes).flatten = changes ∧
      isPartitionOf start_seq last_seq
        (frames.map (fun f => (f.seqs_start, f.seqs_end))) = true := by
  refine ⟨specGo last_seq n changes [] start_seq,
    run_new_eq_specGo changes start_seq last_seq n fuel hfuel, ?_, ?_⟩
  · simpa using specGo_join last_seq n changes [] start_seq (fun c hc => (hin c hc).2) hasc
  · exact specGo_partition last_seq n changes [] start_seq hsl hin hasc

def chW0 : Change := ⟨"t", "pk", "c", "v", 1, 1, 0, none⟩

def chW1 : Change := ⟨"t", "pk", "c", "v", 1, 1, 1, none⟩

def chW2 : Change := ⟨"t", "pk", "c", "v", 1, 1, 2, none⟩

/-- Witness for C1, at the spec's chunker-splits scenario: three records,
start 0, last 100, chunk size 2. -/
theorem chunker_frames_partition_witness :
    ∃ frames : List Frame,
      ChunkedChanges.run 5
          (ChunkedChanges.new ([chW0, chW1, chW2].map Except.ok) 0 100 2)
        = frames.map Except.ok ∧
      (frames.map Frame.changes).flatten = [chW0, chW1, chW2] ∧
      isPartitionOf 0 100 (frames.map (fun f => (f.seqs_start, f.seqs_end))) = true :=
  chunker_frames_partition [chW0, chW1, chW2] 0 100 2 5
    (by decide) (by decide) (by decide) (by decide)

/-- C2 counterexample: the chunker does NOT terminate after yielding an
iterator error.  Concretely, over the iterator `[Err "boom", Ok record]` with
`last_seq = 5`, the first `next()` yields the error verbatim, but the second
`next()` yields another item (not `none`) and fully consumes the rest of the
iterator. -/
theorem chunker_error_terminates_cex :
    (ChunkedChanges.new [Except.error "boom", Except.ok chW0] 0 5 50).next.1
        = some (Except.error "boom") ∧
    ((ChunkedChanges.new [Except.error "boom", Except.ok chW0] 0 5 50).next.2).next.1
        ≠ none ∧
    ((ChunkedChanges.new [Except.error "boom", Except.ok chW0] 0 5 50).next.2).next.2.iter
        = [] := by decide

/-- C2 amended: an error from the underlying iterator is yielded verbatim by
`next()`, which advances past the error but leaves the buffer and the `done`
flag untouched; the chunker is not marked done, so stopping after an error is
the caller's responsibility (the post-commit broadcast loop indeed breaks). -/
theorem chunker_error_passthrough (s : ChunkedChanges) (e : SqlError)
    (rest : List (Except SqlError Change))
    (hdone : s.done = false) (hiter : s.iter = Except.error e :: rest) :
    s.next = (some (Except.error e), { s with iter := rest }) := by
  rw [ChunkedChanges.next, if_neg (by simp [hdone]), hiter]
  rfl

/-- Witness for the amended C2. -/
theorem chunker_error_passthrough_witness :
    (ChunkedChanges.new [Except.error "disk"] 0 5 50).next
      = (some (Except.error "disk"),
         { ChunkedChanges.new [Except.error "disk"] 0 5 50 with iter := [] }) :=
  chunker_error_passthrough (ChunkedChanges.new [Except.error "disk"] 0 5 50) "disk" []
    rfl rfl

/-- C8: a chunker built over the empty iterator yields exactly one frame
(empty record vector, range `start_seq..=last_seq`) and then nothing more, no
matter how much additional fuel is supplied. -/
theorem chunker_empty_iter (start_seq last_seq : Int) (n fuel : Nat) (hfuel : 2 ≤ fuel) :
    ChunkedChanges.run fuel (ChunkedChanges.new [] start_seq last_seq n)
      = [Except.ok ⟨[], start_seq, last_seq⟩] := by
  simpa [specGo] using
    run_new_eq_specGo [] start_seq last_seq n fuel (by simpa using hfuel)

/-- Witness for C8 at the spec's scenario `(iter = ∅, start 0, last 100, N 50)`. -/
theorem chunker_empty_iter_witness :
    ChunkedChanges.run 2 (ChunkedChanges.new [] 0 100 50)
      = [Except.ok ⟨[], 0, 100⟩] :=
  chunker_empty_iter 0 100 50 2 (by decide)

/-- C9: as soon as a pushed record's seq equals `last_seq` the chunker yields a
final frame whose range ends at `last_seq`, marks itself done while leaving the
rest of the iterator unconsumed, and every subsequent call yields nothing. -/
theorem chunker_stops_at_last_seq (s : ChunkedChanges) (c : Change)
    (rest : List (Except SqlError Change)) (fuel : Nat)
    (hdone : s.done = false) (hiter : s.iter = Except.ok c :: rest)
    (hseq : c.seq = s.last_seq) :
    s.next = (some (Except.ok ⟨s.changes ++ [c], s.last_start_seq, s.last_seq⟩),
      { s with iter := rest, changes := s.changes ++ [c],
               last_pushed_seq := c.seq, done := true }) ∧
    ChunkedChanges.run fuel
      { s with iter := rest, changes := s.changes ++ [c],
               last_pushed_seq := c.seq, done := true } = [] := by
  constructor
  · rw [ChunkedChanges.next, if_neg (by simp [hdone]), hiter]
    simp [ChunkedChanges.nextLoop, hseq]
  · cases fuel with
    | zero => rfl
    | succ f => simp [ChunkedChanges.run, ChunkedChanges.next]

/-- Witness for C9 at the spec's chunker-exact-end scenario:
`(iter = [seq0, seq1], start 0, last 0, N 1)`; the `seq1` record is never
consumed; its `Except.ok` entry is still in `iter` afterwards. -/
theorem chunker_stops_at_last_seq_witness :
    (ChunkedChanges.new [Except.ok chW0, Except.ok chW1] 0 0 1).next
      = (some (Except.ok ⟨[chW0], 0, 0⟩),
         { ChunkedChanges.new [Except.ok chW0, Except.ok chW1] 0 0 1 with
             iter := [Except.ok chW1], changes := [chW0],
             last_pushed_seq := 0, done := true }) ∧
    ChunkedChanges.run 9
      { ChunkedChanges.new [Except.ok chW0, Except.ok chW1] 0 0 1 with
          iter := [Except.ok chW1], changes := [chW0],
          last_pushed_seq := 0, done := true } = [] :=
  chunker_stops_at_last_seq (ChunkedChanges.new [Except.ok chW0, Except.ok chW1] 0 0 1)
    chW0 [Except.ok chW1] 9 rfl rfl rfl

/-- With the size check firing after every push and a nonempty buffer at each
check, chunk sizes 0 and 1 are indistinguishable. -/
theorem specGo_zero_eq_one (last : Int) (rem : List Change) :
    ∀ (buf : List Change) (a : Int), specGo last 0 rem buf a = specGo last 1 rem buf a := by
  induction rem with
  | nil => intro buf a; rfl
  | cons c rest ih =>
    intro buf a
    by_cases hc : c.seq = last
    · simp [specGo, hc]
    · simp [specGo, hc, ih]

/-- With chunk size 0, every non-terminal frame is a singleton. -/
theorem specGo_zero_singletons (last : Int) (rem : List Change) :
    ∀ (a : Int), ∀ f ∈ (specGo last 0 rem [] a).dropLast, f.changes.length = 1 := by
  induction rem with
  | nil => intro a f hf; simp [specGo] at hf
  | cons c rest ih =>
    intro a f hf
    by_cases hc : c.seq = last
    · simp [specGo, hc] at hf
    · rw [show specGo last 0 (c :: rest) [] a
          = ⟨[c], a, c.seq⟩ :: specGo last 0 rest [] (c.seq + 1) from by
        simp [specGo, hc]] at hf
      obtain ⟨p, l, hpl⟩ : ∃ p l, specGo last 0 rest [] (c.seq + 1) = p :: l := by
        cases hsub : specGo last 0 rest [] (c.seq + 1) with
        | nil => exact absurd hsub (specGo_ne_nil last 0 rest [] (c.seq + 1))
        | cons p l => exact ⟨p, l, rfl⟩
      rw [hpl, List.dropLast_cons₂] at hf
      rcases List.mem_cons.mp hf with hf | hf
      · rw [hf]; rfl
      · exact ih (c.seq + 1) f (by rw [hpl]; exact hf)

/-- C10: `ChunkedChanges::new` accepts `chunk_size = 0` and the resulting
chunker behaves exactly as with `chunk_size = 1`: over an error-free ascending
input the runs coincide, every non-terminal frame is a singleton, and the
concatenation and partition properties still hold. -/
theorem chunker_zero_chunk_size (changes : List Change) (start_seq last_seq : Int)
    (fuel : Nat)
    (hasc : changes.Pairwise (fun x y => x.seq < y.seq))
    (hin : ∀ c ∈ changes, start_seq ≤ c.seq ∧ c.seq ≤ last_seq)
    (hsl : start_seq ≤ last_seq)
    (hfuel : changes.length + 2 ≤ fuel) :
    ChunkedChanges.run fuel
        (ChunkedChanges.new (changes.map Except.ok) start_seq last_seq 0)
      = ChunkedChanges.run fuel
        (ChunkedChanges.new (changes.map Except.ok) start_seq last_seq 1) ∧
    ∃ frames : List Frame,
      ChunkedChanges.run fuel
          (ChunkedChanges.new (changes.map Except.ok) start_seq last_seq 0)
        = frames.map Except.ok ∧
      (∀ f ∈ frames.dropLast, f.changes.length = 1) ∧
      (frames.map Frame.changes).flatten = changes ∧
      isPartitionOf start_seq last_seq
        (frames.map (fun f => (f.seqs_start, f.seqs_end))) = true := by
  constructor
  · rw [run_new_eq_specGo changes start_seq last_seq 0 fuel hfuel,
        run_new_eq_specGo changes start_seq last_seq 1 fuel hfuel,
        specGo_zero_eq_one]
  · refine ⟨specGo last_seq 0 changes [] start_seq,
      run_new_eq_specGo changes start_seq last_seq 0 fuel hfuel,
      specGo_zero_singletons last_seq changes start_seq, ?_, ?_⟩
    · simpa using specGo_join last_seq 0 changes [] start_seq
        (fun c hc => (hin c hc).2) hasc
    · exact specGo_partition last_seq 0 changes [] start_seq hsl hin hasc

/-- Witness for C10: three ascending records, chunk size 0. -/
theorem chunker_zero_chunk_size_witness :
    ChunkedChanges.run 5
        (ChunkedChanges.new ([chW0, chW1, chW2].map Except.ok) 0 100 0)
      = ChunkedChanges.run 5
        (ChunkedChanges.new ([chW0, chW1, chW2].map Except.ok) 0 100 1) ∧
    ∃ frames : List Frame,
      ChunkedChanges.run 5
          (ChunkedChanges.new ([chW0, chW1, chW2].map Except.ok) 0 100 0)
        = frames.map Except.ok ∧
      (∀ f ∈ frames.dropLast, f.changes.length = 1) ∧
      (frames.map Frame.changes).flatten = [chW0, chW1, chW2] ∧
      isPartitionOf 0 100 (frames.map (fun f => (f.seqs_start, f.seqs_end))) = true :=
  chunker_zero_chunk_size [chW0, chW1, chW2] 0 100 5
    (by decide) (by decide) (by decide) (by decide)

/-! ### The writer: `make_broadcastable_changes`

The writer is modelled as a pure transition on an explicit `AgentState`.  The
user operation `f` is abstracted by its outcome: either a `ChangeError`, or its
return value together with the list of rows the transaction wrote into
`crsql_changes` under the fresh `db_version` (the CRR extension is an external
collaborator).  The SQL fragments are modelled one for one:
`EXISTS(... WHERE site_id IS NULL ...)` and `MAX(seq)` become `max?` over the
filtered rows, the `INSERT INTO __corro_bookkeeping` appends one row, the
in-memory bookie insert appends one entry, and the post-commit task reads the
rows back (`COALESCE(site_id, crsql_siteid())`; the `ORDER BY seq ASC` is
reflected by the ascending hypothesis in the theorems below), chunks them with
`MAX_CHANGES_PER_MESSAGE` over `0..=last_seq`, and enqueues one `AddBroadcast`
per frame, stopping at the first chunker error. -/

/-- `pub const MAX_CHANGES_PER_MESSAGE: usize = 50;` -/
def MAX_CHANGES_PER_MESSAGE : Nat := 50

/-- The `KnownDbVersion` variant recorded by the writer. -/
inductive KnownDbVersion
  | Current (db_version : Int) (last_seq : Int) (ts : Int)
deriving DecidableEq, Repr

/-- A row of `__corro_bookkeeping (actor_id, start_version, db_version, last_seq, ts)`. -/
structure BookRow where
  actor_id : Nat
  start_version : Int
  db_version : Int
  last_seq : Int
  ts : Int
deriving DecidableEq, Repr

/-- The payload of one `AddBroadcast(Message::V1(MessageV1::Change(ChangeV1 {
actor_id, changeset: Changeset::Full { version, changes, seqs, last_seq, ts }})))`
message enqueued on the broadcast channel. -/
structure BroadcastChange where
  actor_id : Nat
  version : Int
  changes : List Change
  seqs_start : Int
  seqs_end : Int
  last_seq : Int
  ts : Int
deriving DecidableEq, Repr

/-- The state the writer touches: the actor identity, the local crsql site id,
the clock, the next `db_version` the CRR extension will hand out, the per-actor
in-memory bookie, the `__corro_bookkeeping` table, and the broadcast channel
(modelled as the list of messages enqueued so far). -/
structure AgentState where
  actor_id : Nat
  site_id : Int
  clock_ts : Int
  next_db_version : Int
  booked : List (Int × KnownDbVersion)
  bookkeeping : List BookRow
  tx_bcast : List BroadcastChange
deriving DecidableEq, Repr

/-- `book_writer.last()`: the greatest version recorded in the bookie. -/
def bookedLast (b : List (Int × KnownDbVersion)) : Option Int := (b.map Prod.fst).max?

/-- `COALESCE(site_id, crsql_siteid())` applied to one row. -/
def coalesceSite (site : Int) (c : Change) : Change :=
  { c with site_id := some (c.site_id.getD site) }

/-- The post-commit `while let Some(changes_seqs) = chunked.next()` loop: one
`AddBroadcast` per `Ok` frame, `break` on the first `Err`. -/
def framesToMsgs (actor : Nat) (version last_seq ts : Int) :
    List (Except SqlError Frame) → List BroadcastChange
  | [] => []
  | Except.ok f :: rest =>
      ⟨actor, version, f.changes, f.seqs_start, f.seqs_end, last_seq, ts⟩ ::
        framesToMsgs actor version last_seq ts rest
  | Except.error _ :: _ => []

/-- The effect of a change-producing commit: allocate `version = last + 1`,
insert the bookkeeping row, record `KnownDbVersion::Current` in the bookie, and
run the post-commit broadcast task over the version's rows. -/
def writerCommit (st : AgentState) (localChs : List Change) (last_seq : Int) : AgentState :=
  { st with
    next_db_version := st.next_db_version + 1
    bookkeeping := st.bookkeeping ++
      [⟨st.actor_id, (bookedLast st.booked).getD 0 + 1, st.next_db_version, last_seq,
        st.clock_ts⟩]
    booked := st.booked ++
      [((bookedLast st.booked).getD 0 + 1,
        KnownDbVersion.Current st.next_db_version last_seq st.clock_ts)]
    tx_bcast := st.tx_bcast ++
      framesToMsgs st.actor_id ((bookedLast st.booked).getD 0 + 1) last_seq st.clock_ts
        (ChunkedChanges.run ((localChs.map (coalesceSite st.site_id)).length + 2)
          (ChunkedChanges.new ((localChs.map (coalesceSite st.site_id)).map Except.ok)
            0 last_seq MAX_CHANGES_PER_MESSAGE)) }

/-- `make_broadcastable_changes`: runs `f` (abstracted by its outcome `fres`)
inside one write transaction.  On error the transaction rolls back and nothing
changes.  On success, if the transaction wrote no local rows (`MAX(seq)` over
the `site_id IS NULL` rows is `NULL`), the commit happens with no further
effect; otherwise the commit additionally performs `writerCommit`. -/
def make_broadcastable_changes {α : Type} (st : AgentState)
    (fres : Except String (α × List Change)) : Except String (α × AgentState) :=
  match fres with
  | Except.error e => Except.error e
  | Except.ok (ret, chs) =>
    match ((chs.filter (fun c => c.site_id.isNone)).map Change.seq).max? with
    | none => Except.ok (ret, st)
    | some last_seq =>
      Except.ok (ret, writerCommit st (chs.filter (fun c => c.site_id.isNone)) last_seq)

/-! ### Writer claims -/

/-- C3: for every write whose transaction produced at least one
locally-originated change, exactly one row is appended to `__corro_bookkeeping`,
carrying this actor's id and version equal to the bookie's previous last
version plus one; when no version was ever allocated (`booked` empty), that
version is `1`. -/
theorem writer_inserts_next_version {α : Type} (st : AgentState) (ret : α)
    (chs : List Change)
    (hne : chs.filter (fun c => c.site_id.isNone) ≠ []) :
    ∃ (st' : AgentState) (last_seq : Int),
      make_broadcastable_changes st (Except.ok (ret, chs)) = Except.ok (ret, st') ∧
      st'.bookkeeping = st.bookkeeping ++
        [⟨st.actor_id, (bookedLast st.booked).getD 0 + 1, st.next_db_version, last_seq,
          st.clock_ts⟩] ∧
      (st.booked = [] → (bookedLast st.booked).getD 0 + 1 = 1) := by
  cases hmax : ((chs.filter (fun c => c.site_id.isNone)).map Change.seq).max? with
  | none =>
    exact absurd (List.map_eq_nil_iff.mp (List.max?_eq_none_iff.mp hmax)) hne
  | some m =>
    refine ⟨writerCommit st (chs.filter (fun c => c.site_id.isNone)) m, m, ?_, rfl, ?_⟩
    · simp [make_broadcastable_changes, hmax]
    · intro hb
      simp [bookedLast, hb]

def wW0 : Change := ⟨"tests", "id", "text", "hello", 1, 1, 0, none⟩

def wAgent : AgentState :=
  { actor_id := 7, site_id := 3, clock_ts := 33, next_db_version := 1,
    booked := [], bookkeeping := [], tx_bcast := [] }

/-- Witness for C3: a fresh agent committing one change allocates version 1. -/
theorem writer_inserts_next_version_witness :
    ∃ (st' : AgentState) (last_seq : Int),
      make_broadcastable_changes wAgent (Except.ok ((), [wW0])) = Except.ok ((), st') ∧
      st'.bookkeeping = wAgent.bookkeeping ++
        [⟨wAgent.actor_id, (bookedLast wAgent.booked).getD 0 + 1, wAgent.next_db_version,
          last_seq, wAgent.clock_ts⟩] ∧
      (wAgent.booked = [] → (bookedLast wAgent.booked).getD 0 + 1 = 1) :=
  writer_inserts_next_version wAgent () [wW0] (by decide)

/-- C4: a write whose user operation succeeds but whose transaction produced no
locally-originated changes still commits (the call returns `Ok`), and the state
is completely unchanged: no bookkeeping row, no bookie entry (so no version is
consumed), no broadcast message.  Consequently the next change-producing write
on the same state still allocates `last + 1` relative to the old last version. -/
theorem writer_empty_changeset_noop {α : Type} (st : AgentState) (ret : α)
    (chs : List Change)
    (hempty : chs.filter (fun c => c.site_id.isNone) = []) :
    make_broadcastable_changes st (Except.ok (ret, chs)) = Except.ok (ret, st) ∧
    ∀ (chs2 : List Change) (m : Int),
      ((chs2.filter (fun c => c.site_id.isNone)).map Change.seq).max? = some m →
      ∃ st2 : AgentState,
        make_broadcastable_changes st (Except.ok (ret, chs2)) = Except.ok (ret, st2) ∧
        st2.bookkeeping = st.bookkeeping ++
          [⟨st.actor_id, (bookedLast st.booked).getD 0 + 1, st.next_db_version, m,
            st.clock_ts⟩] := by
  constructor
  · simp [make_broadcastable_changes, hempty]
  · intro chs2 m hmax
    exact ⟨writerCommit st (chs2.filter (fun c => c.site_id.isNone)) m,
      by simp [make_broadcastable_changes, hmax], rfl⟩

def wRemote : Change := ⟨"tests", "id", "text", "hello", 1, 1, 0, some 9⟩

/-- Witness for C4: a transaction that produced only a remote-origin row (a
no-op for the local actor) leaves the state untouched. -/
theorem writer_empty_changeset_noop_witness :
    make_broadcastable_changes wAgent (Except.ok ((), [wRemote])) = Except.ok ((), wAgent) ∧
    ∀ (chs2 : List Change) (m : Int),
      ((chs2.filter (fun c => c.site_id.isNone)).map Change.seq).max? = some m →
      ∃ st2 : AgentState,
        make_broadcastable_changes wAgent (Except.ok ((), chs2)) = Except.ok ((), st2) ∧
        st2.bookkeeping = wAgent.bookkeeping ++
          [⟨wAgent.actor_id, (bookedLast wAgent.booked).getD 0 + 1, wAgent.next_db_version,
            m, wAgent.clock_ts⟩] :=
  writer_empty_changeset_noop wAgent () [wRemote] (by decide)

/-- `max?` on `Int` lists: the maximum is a member and an upper bound. -/
theorem max?_int_spec {l : List Int} {m : Int} (h : l.max? = some m) :
    m ∈ l ∧ ∀ b ∈ l, b ≤ m := by
  have anti : Std.Antisymm (α := Int) (fun x1 x2 => x1 ≤ x2) :=
    ⟨fun h1 h2 => le_antisymm h1 h2⟩
  rw [List.max?_eq_some_iff (fun a => le_refl a) (fun a b => max_choice a b)
    (fun a b c => max_le_iff)] at h
  exact h

/-- When every record fits in one chunk and some record's seq equals `last`
(necessarily the final one, by ascent), the functional run is one full frame. -/
theorem specGo_single (last : Int) (n : Nat) (rem : List Change) :
    ∀ (buf : List Change) (a : Int),
      (∀ c ∈ rem, c.seq ≤ last) →
      rem.Pairwise (fun x y => x.seq < y.seq) →
      (∃ c ∈ rem, c.seq = last) →
      buf.length + rem.length ≤ n →
      specGo last n rem buf a = [⟨buf ++ rem, a, last⟩] := by
  induction rem with
  | nil => intro buf a _ _ hex _; simp at hex
  | cons c rest ih =>
    intro buf a hin hasc hex hsize
    rw [List.pairwise_cons] at hasc
    by_cases hc : c.seq = last
    · have hrest : rest = [] := by
        cases rest with
        | nil => rfl
        | cons y t =>
          have h1 : c.seq < y.seq := hasc.1 y (by simp)
          have h2 : y.seq ≤ last := hin y (by simp)
          omega
      simp [specGo, hc, hrest]
    · obtain ⟨w, hw, hwlast⟩ := hex
      have hwrest : w ∈ rest := by
        rcases List.mem_cons.mp hw with h | h
        · exact absurd (h ▸ hwlast) hc
        · exact h
      have hrl : 1 ≤ rest.length := List.length_pos.mpr (List.ne_nil_of_mem hwrest)
      simp only [List.length_cons] at hsize
      have hn : ¬ (n ≤ buf.length + 1) := by omega
      have htail := ih (buf ++ [c]) a (fun x hx => hin x (by simp [hx])) hasc.2
        ⟨w, hwrest, hwlast⟩ (by simp; omega)
      simp [specGo, hc, hn, htail]

theorem framesToMsgs_map_ok (actor : Nat) (version last_seq ts : Int) (fs : List Frame) :
    framesToMsgs actor version last_seq ts (fs.map Except.ok)
      = fs.map (fun f =>
          ⟨actor, version, f.changes, f.seqs_start, f.seqs_end, last_seq, ts⟩) := by
  induction fs with
  | nil => rfl
  | cons f rest ih => simp [framesToMsgs, ih]

/-- 51 local change records with seqs `0..=50`. -/
def cexChanges : List Change :=
  (List.range 51).map (fun i => ⟨"t", "pk", "c", "v", 1, 1, (i : Int), none⟩)

set_option maxRecDepth 100000 in
/-- C5 counterexample: a write whose transaction produced 51 change records
(seqs `0..=50`, exceeding `MAX_CHANGES_PER_MESSAGE = 50`) enqueues TWO
`AddBroadcast` messages for the allocated version (1), not exactly one: the
chunker yields two frames and the post-commit loop sends one message per
frame. -/
theorem writer_single_broadcast_cex :
    Except.map (fun p => ((p.2.tx_bcast.filter (fun msg => msg.version == 1)).length))
        (make_broadcastable_changes wAgent (Except.ok ((), cexChanges)))
      = Except.ok 2 ∧
    Except.map (fun p => ((p.2.tx_bcast.filter (fun msg => msg.version == 1)).length))
        (make_broadcastable_changes wAgent (Except.ok ((), cexChanges)))
      ≠ Except.ok 1 := by constructor <;> decide

/-- C5 amended: for every write with a non-empty change set, the post-commit
reader feeds the version's change records (ascending by seq, null `site_id`
replaced by the local site id) through a chunker with chunk size
`MAX_CHANGES_PER_MESSAGE = 50` over `0..=last_seq`, and enqueues exactly one
`AddBroadcast` for the allocated version PER YIELDED FRAME, in frame order; in
particular exactly one message when the version has at most 50 records. -/
theorem writer_broadcast_per_frame {α : Type} (st : AgentState) (ret : α)
    (chs : List Change)
    (hne : chs ≠ [])
    (hlocal : ∀ c ∈ chs, c.site_id = none)
    (hasc : chs.Pairwise (fun x y => x.seq < y.seq))
    (hpos : ∀ c ∈ chs, 0 ≤ c.seq) :
    ∃ (st' : AgentState) (last_seq : Int) (frames : List Frame),
      make_broadcastable_changes st (Except.ok (ret, chs)) = Except.ok (ret, st') ∧
      (chs.map Change.seq).max? = some last_seq ∧
      st'.tx_bcast = st.tx_bcast ++ frames.map (fun f =>
        ⟨st.actor_id, (bookedLast st.booked).getD 0 + 1, f.changes,
         f.seqs_start, f.seqs_end, last_seq, st.clock_ts⟩) ∧
      (frames.map Frame.changes).flatten = chs.map (coalesceSite st.site_id) ∧
      isPartitionOf 0 last_seq
        (frames.map (fun f => (f.seqs_start, f.seqs_end))) = true ∧
      (chs.length ≤ MAX_CHANGES_PER_MESSAGE → frames.length = 1) := by
  have hfilter : chs.filter (fun c => c.site_id.isNone) = chs :=
    List.filter_eq_self.mpr (fun c hc => by simp [hlocal c hc])
  obtain ⟨m, hmax⟩ : ∃ m, (chs.map Change.seq).max? = some m := by
    cases hm : (chs.map Change.seq).max? with
    | none => exact absurd (List.map_eq_nil_iff.mp (List.max?_eq_none_iff.mp hm)) hne
    | some m => exact ⟨m, rfl⟩
  obtain ⟨hmem, hub⟩ := max?_int_spec hmax
  obtain ⟨w, hwmem, hwseq⟩ := List.mem_map.mp hmem
  have hub' : ∀ c ∈ chs, c.seq ≤ m := fun c hc => hub c.seq (List.mem_map_of_mem _ hc)
  have hm0 : 0 ≤ m := le_trans (hpos w hwmem) (le_of_eq hwseq)
  have hrasc : (chs.map (coalesceSite st.site_id)).Pairwise (fun x y => x.seq < y.seq) := by
    rw [List.pairwise_map]
    simpa [coalesceSite] using hasc
  have hrub : ∀ c ∈ chs.map (coalesceSite st.site_id), c.seq ≤ m := by
    intro c hc
    obtain ⟨x, hx, rfl⟩ := List.mem_map.mp hc
    simpa [coalesceSite] using hub' x hx
  have hrin : ∀ c ∈ chs.map (coalesceSite st.site_id), 0 ≤ c.seq ∧ c.seq ≤ m := by
    intro c hc
    obtain ⟨x, hx, rfl⟩ := List.mem_map.mp hc
    exact ⟨by simpa [coalesceSite] using hpos x hx, by simpa [coalesceSite] using hub' x hx⟩
  have hrun := run_new_eq_specGo (chs.map (coalesceSite st.site_id)) 0 m
    MAX_CHANGES_PER_MESSAGE ((chs.map (coalesceSite st.site_id)).length + 2) le_rfl
  refine ⟨writerCommit st chs m, m, specGo m MAX_CHANGES_PER_MESSAGE
      (chs.map (coalesceSite st.site_id)) [] 0,
    by simp [make_broadcastable_changes, hfilter, hmax], hmax, ?_, ?_, ?_, ?_⟩
  · show (writerCommit st chs m).tx_bcast = _
    rw [writerCommit]
    simp only [hrun, framesToMsgs_map_ok]
  · simpa using specGo_join m MAX_CHANGES_PER_MESSAGE
      (chs.map (coalesceSite st.site_id)) [] 0 hrub hrasc
  · exact specGo_partition m MAX_CHANGES_PER_MESSAGE
      (chs.map (coalesceSite st.site_id)) [] 0 hm0 hrin hrasc
  · intro hlen
    have hex : ∃ c ∈ chs.map (coalesceSite st.site_id), c.seq = m :=
      ⟨coalesceSite st.site_id w, List.mem_map_of_mem _ hwmem, by simpa [coalesceSite] using hwseq⟩
    rw [specGo_single m MAX_CHANGES_PER_MESSAGE (chs.map (coalesceSite st.site_id)) [] 0
      hrub hrasc hex (by simpa using hlen)]
    rfl

/-- Witness for the amended C5: two local records, seqs 0 and 1. -/
theorem writer_broadcast_per_frame_witness :
    ∃ (st' : AgentState) (last_seq : Int) (frames : List Frame),
      make_broadcastable_changes wAgent (Except.ok ((), [chW0, chW1])) = Except.ok ((), st') ∧
      ([chW0, chW1].map Change.seq).max? = some last_seq ∧
      st'.tx_bcast = wAgent.tx_bcast ++ frames.map (fun f =>
        ⟨wAgent.actor_id, (bookedLast wAgent.booked).getD 0 + 1, f.changes,
         f.seqs_start, f.seqs_end, last_seq, wAgent.clock_ts⟩) ∧
      (frames.map Frame.changes).flatten = [chW0, chW1].map (coalesceSite wAgent.site_id) ∧
      isPartitionOf 0 last_seq
        (frames.map (fun f => (f.seqs_start, f.seqs_end))) = true ∧
      ([chW0, chW1].length ≤ MAX_CHANGES_PER_MESSAGE → frames.length = 1) :=
  writer_broadcast_per_frame wAgent () [chW0, chW1]
    (by decide) (by decide) (by decide) (by decide)

/-! ### The transactional execute endpoint: `api_v1_transactions`

The SQL engine behind `tx.execute` is an external collaborator; it is
abstracted as an oracle mapping a statement and the transaction state to
either an affected-row count with the successor state, or an error (a failing
statement leaves the transaction state as it was, per SQLite statement-level
rollback).  The per-statement elapsed times (`f64` seconds) are not modelled. -/

/-- SQL parameter values (`real` omitted: floating point plays no role in the
claims about this endpoint). -/
inductive SqliteValue
  | null
  | integer (i : Int)
  | text (s : String)
  | blob (b : List Nat)
deriving DecidableEq, Repr

/-- `Statement`: one of `Simple(sql)`, `WithParams(sql, values)`,
`WithNamedParams(sql, named values)`. -/
inductive Statement
  | Simple (q : String)
  | WithParams (q : String) (ps : List SqliteValue)
  | WithNamedParams (q : String) (ps : List (String × SqliteValue))
deriving DecidableEq, Repr

/-- `RqliteResult`: `Execute { rows_affected, time }` or `Error { error }`
(times not modelled). -/
inductive RqliteResult
  | Execute (rows_affected : Nat)
  | Error (error : String)
deriving DecidableEq, Repr

/-- The HTTP reply of the endpoint: status code and per-statement results. -/
structure RqliteResponse where
  status : Nat
  results : List RqliteResult
deriving DecidableEq, Repr

/-- The abstract SQL engine behind `execute_statement` / `tx.execute`. -/
def EngineOracle (δ : Type) := Statement → δ → Except String (Nat × δ)

/-- The closure passed to the writer: fold `execute_statement` over the
statements, collecting `Execute { rows_affected }` on success and
`Error { error }` on failure, never aborting (the Rust `filter_map` closure
always returns `Some` and the fold itself returns `Ok`). -/
def runStatements {δ : Type} (exec : EngineOracle δ) :
    List Statement → δ → List RqliteResult × δ
  | [], db => ([], db)
  | stmt :: rest, db =>
    match exec stmt db with
    | Except.ok (n, db2) =>
      let r := runStatements exec rest db2
      (RqliteResult.Execute n :: r.1, r.2)
    | Except.error e =>
      let r := runStatements exec rest db
      (RqliteResult.Error e :: r.1, r.2)

/-- The per-statement result the endpoint records: `Execute { rows_affected }`
on success, `Error { error }` on failure. -/
def stmtOutcome {δ : Type} (exec : EngineOracle δ) (stmt : Statement) (db : δ) :
    RqliteResult :=
  match exec stmt db with
  | Except.ok (n, _) => RqliteResult.Execute n
  | Except.error e => RqliteResult.Error e

/-- The transaction state after executing a prefix of the statements (failing
statements leave it unchanged). -/
def dbAfter {δ : Type} (exec : EngineOracle δ) : List Statement → δ → δ
  | [], db => db
  | stmt :: rest, db =>
    match exec stmt db with
    | Except.ok (_, db2) => dbAfter exec rest db2
    | Except.error _ => dbAfter exec rest db

/-- `api_v1_transactions`: reject an empty list with 400; otherwise run all
statements through the writer and reply 200 with the per-statement results
(500 only if the writer itself fails).  `chs` abstracts the crsql change rows
the statements produced. -/
def api_v1_transactions {δ : Type} (exec : EngineOracle δ) (st : AgentState)
    (chs : List Change) (statements : List Statement) (db : δ) :
    RqliteResponse × AgentState :=
  if statements.isEmpty then
    (⟨400, [RqliteResult.Error "at least 1 statement is required"]⟩, st)
  else
    match make_broadcastable_changes st
        (Except.ok ((runStatements exec statements db).1, chs)) with
    | Except.ok (results, st2) => (⟨200, results⟩, st2)
    | Except.error e => (⟨500, [RqliteResult.Error e]⟩, st)

theorem runStatements_length {δ : Type} (exec : EngineOracle δ) (sts : List Statement) :
    ∀ db : δ, ((runStatements exec sts db).1).length = sts.length := by
  induction sts with
  | nil => intro db; rfl
  | cons stmt rest ih =>
    intro db
    cases h : exec stmt db with
    | ok p => simp [runStatements, h, ih]
    | error e => simp [runStatements, h, ih]

theorem runStatements_getElem? {δ : Type} (exec : EngineOracle δ) (sts : List Statement) :
    ∀ (db : δ) (i : Nat),
      ((runStatements exec sts db).1)[i]? =
        (sts.drop i).head?.map
          (fun stmt => stmtOutcome exec stmt (dbAfter exec (sts.take i) db)) := by
  induction sts with
  | nil => intro db i; simp [runStatements]
  | cons stmt rest ih =>
    intro db i
    cases i with
    | zero =>
      cases h : exec stmt db with
      | ok p => simp [runStatements, dbAfter, stmtOutcome, h]
      | error e => simp [runStatements, dbAfter, stmtOutcome, h]
    | succ j =>
      cases h : exec stmt db with
      | ok p => simpa [runStatements, dbAfter, h] using ih p.2 j
      | error e => simpa [runStatements, dbAfter, h] using ih db j

/-- The writer never fails when the user closure succeeds (as the endpoint's
closure always does). -/
theorem make_broadcastable_changes_succeeds {α : Type} (st : AgentState) (ret : α)
    (chs : List Change) :
    ∃ st2 : AgentState,
      make_broadcastable_changes st (Except.ok (ret, chs)) = Except.ok (ret, st2) := by
  cases hmax : ((chs.filter (fun c => c.site_id.isNone)).map Change.seq).max? with
  | none => exact ⟨st, by simp [make_broadcastable_changes, hmax]⟩
  | some m =>
    exact ⟨writerCommit st (chs.filter (fun c => c.site_id.isNone)) m,
      by simp [make_broadcastable_changes, hmax]⟩

/-- C6: for every non-empty statement list, the response is 200 and contains
exactly one result per input statement in input order; the i-th result is
`Execute(n)` when the engine succeeds on the i-th statement (run against the
state threaded through all earlier statements, failed ones included) and
`Error(e)` when it fails — so a statement-level failure does not abort: later
statements still execute and the transaction still commits (the writer
returns `Ok` and the endpoint adopts the committed state). -/
theorem transactions_per_statement_results {δ : Type} (exec : EngineOracle δ)
    (st : AgentState) (chs : List Change) (statements : List Statement) (db : δ)
    (hne : statements ≠ []) :
    (api_v1_transactions exec st chs statements db).1.status = 200 ∧
    (api_v1_transactions exec st chs statements db).1.results.length
      = statements.length ∧
    (∀ i, i < statements.length →
      ((api_v1_transactions exec st chs statements db).1.results)[i]? =
        (statements.drop i).head?.map
          (fun stmt => stmtOutcome exec stmt (dbAfter exec (statements.take i) db))) ∧
    ∃ st2 : AgentState,
      make_broadcastable_changes st
          (Except.ok ((runStatements exec statements db).1, chs))
        = Except.ok ((runStatements exec statements db).1, st2) ∧
      (api_v1_transactions exec st chs statements db).2 = st2 := by
  obtain ⟨st2, hmbc⟩ :=
    make_broadcastable_changes_succeeds st (runStatements exec statements db).1 chs
  have hemp : statements.isEmpty = false := by
    cases statements with
    | nil => exact absurd rfl hne
    | cons _ _ => rfl
  have happ : api_v1_transactions exec st chs statements db
      = (⟨200, (runStatements exec statements db).1⟩, st2) := by
    simp [api_v1_transactions, hemp, hmbc]
  rw [happ]
  exact ⟨rfl, runStatements_length exec statements db,
    fun i _ => runStatements_getElem? exec statements db i,
    st2, hmbc, rfl⟩

/-- A concrete engine for the C6 witness: `insert into tests` succeeds and
bumps the state; anything else is a syntax error. -/
def wExec : EngineOracle Nat := fun stmt db =>
  match stmt with
  | Statement.Simple q =>
    if q = "insert into tests" then Except.ok (1, db + 1)
    else Except.error "syntax error"
  | _ => Except.error "unsupported"

def wStatements : List Statement :=
  [Statement.Simple "insert into tests", Statement.Simple "bad",
   Statement.Simple "insert into tests"]

/-- Witness for C6: three statements, the middle one failing. -/
theorem transactions_per_statement_results_witness :
    (api_v1_transactions wExec wAgent [wW0] wStatements 0).1.status = 200 ∧
    (api_v1_transactions wExec wAgent [wW0] wStatements 0).1.results.length
      = wStatements.length ∧
    (∀ i, i < wStatements.length →
      ((api_v1_transactions wExec wAgent [wW0] wStatements 0).1.results)[i]? =
        (wStatements.drop i).head?.map
          (fun stmt => stmtOutcome wExec stmt (dbAfter wExec (wStatements.take i) 0))) ∧
    ∃ st2 : AgentState,
      make_broadcastable_changes wAgent
          (Except.ok ((runStatements wExec wStatements 0).1, [wW0]))
        = Except.ok ((runStatements wExec wStatements 0).1, st2) ∧
      (api_v1_transactions wExec wAgent [wW0] wStatements 0).2 = st2 :=
  transactions_per_statement_results wExec wAgent [wW0] wStatements 0 (by decide)

/-! ### The `watch_by_id` snapshot task

The snapshot task spawned by `watch_by_id` is modelled by the list of
row-results it sends on the bounded init channel, as a function of the
outcomes of its external calls: acquiring the dedicated connection
(`pool.get()`), preparing the snapshot statement (`conn.prepare_cached`), the
rows of the matcher's materialized table, and an optional storage error
occurring mid-read (rows read before it are emitted).  Channel sends are
assumed to succeed (a failed send only means the client is gone and the task
returns silently). -/

inductive ChangeType
  | Upsert
  | Delete
deriving DecidableEq, Repr

/-- The streamed row-result unit: `Columns`, `Row`, `EndOfQuery` or `Error`. -/
inductive RowResult
  | Columns (names : List String)
  | Row (change_type : ChangeType) (rowid : Int) (cells : List SqliteValue)
  | EndOfQuery
  | Error (msg : String)
deriving DecidableEq, Repr

/-- The emission trace of the snapshot task, following the source line by
line: send `Columns`; on `pool.get()` failure send `Error` and return
(skipping `EndOfQuery`); otherwise prepare the statement (failure gives
`Error` then `EndOfQuery`); otherwise send `Columns` a second time, then one
`Row{Upsert}` per table row, then `Error` if the read failed mid-way, then
`EndOfQuery`. -/
def snapshotTask (col_names : List String) (conn : Except String Unit)
    (prep : Except String Unit) (tableRows : List (Int × List SqliteValue))
    (readErr : Option String) : List RowResult :=
  RowResult.Columns col_names ::
    (match conn with
     | Except.error e => [RowResult.Error e]
     | Except.ok _ =>
       match prep with
       | Except.error e => [RowResult.Error e, RowResult.EndOfQuery]
       | Except.ok _ =>
         RowResult.Columns col_names ::
           (tableRows.map (fun r => RowResult.Row ChangeType.Upsert r.1 r.2) ++
            (match readErr with
             | some e => [RowResult.Error e]
             | none => []) ++ [RowResult.EndOfQuery]))

def wCols : List String := ["id", "text"]

/-- C7: the snapshot task does NOT emit the column-name row-result exactly
once before any Row, and does NOT emit `EndOfQuery` in every branch.  On a
successful snapshot of one row, the columns row-result appears twice before
the first `Row` (once before and once after acquiring the dedicated reader
and preparing the statement); and when acquiring the dedicated connection
fails, the task returns right after the error row-result, never emitting
`EndOfQuery`. -/
theorem watch_snapshot_trace_eval :
    snapshotTask wCols (Except.ok ()) (Except.ok ())
        [(1, [SqliteValue.text "a"])] none
      = [RowResult.Columns wCols, RowResult.Columns wCols,
         RowResult.Row ChangeType.Upsert 1 [SqliteValue.text "a"],
         RowResult.EndOfQuery] ∧
    ((snapshotTask wCols (Except.ok ()) (Except.ok ())
        [(1, [SqliteValue.text "a"])] none).filter
      (fun r => r == RowResult.Columns wCols)).length = 2 ∧
    snapshotTask wCols (Except.error "pool timed out") (Except.ok ()) [] none
      = [RowResult.Columns wCols, RowResult.Error "pool timed out"] ∧
    RowResult.EndOfQuery ∉
      snapshotTask wCols (Except.error "pool timed out") (Except.ok ()) [] none := by
  refine ⟨rfl, rfl, rfl, ?_⟩
  decide

end Corrosion
